/-
  Verification of the iridium two-pass assembler (bradford-hamilton/iridium).

  Shallow embedding of src/assembler/{mod.rs, instruction_parsers.rs,
  operand_parsers.rs, program_parsers.rs, directive_parsers.rs,
  opcode_parsers.rs}. Machine integers are modelled as Nat/Int with explicit
  `% 2^w` where the source narrows widths. Byte buffers are `List Nat`.
  Parts of the repository referenced from those files but whose source is not
  available (label/register parsers, the Opcode table, error enum, and a few
  helper methods) are modelled from the spec; each such definition carries a
  doc comment starting with `Modelled from the spec:`.
-/
import Mathlib

namespace Iridium

/-- Modelled from the spec: `instruction.rs` (the `Opcode` enum and its
mnemonic table) is not among the provided sources. The spec says opcodes are
"an alphabetic word mapped to a fixed enumeration of machine operations; an
unrecognized word maps to a sentinel illegal opcode". Constructors cover the
mnemonics exercised by the repository's own tests. -/
inductive Opcode where
  | LOAD | ADD | SUB | MUL | DIV | HLT | JMP | JMPF | JMPB
  | EQ | NEQ | GTE | LTE | LT | GT | JMPE | NOP | ALOC
  | INC | DEC | DJMPE | PRTS | CLOOP | CALL | RET | IGL
  deriving DecidableEq

/-- Modelled from the spec: the numeric value of each opcode
(`(*code).into()` in `to_bytes`); `instruction.rs` is not in the sources, so
the numbering follows the declaration order of the enum with `IGL` as the
out-of-range sentinel. No claim depends on the particular numbers. -/
def opcode_byte : Opcode → Nat
  | .LOAD => 0 | .ADD => 1 | .SUB => 2 | .MUL => 3 | .DIV => 4
  | .HLT => 5 | .JMP => 6 | .JMPF => 7 | .JMPB => 8
  | .EQ => 9 | .NEQ => 10 | .GTE => 11 | .LTE => 12 | .LT => 13
  | .GT => 14 | .JMPE => 15 | .NOP => 16 | .ALOC => 17
  | .INC => 18 | .DEC => 19 | .DJMPE => 20 | .PRTS => 21
  | .CLOOP => 22 | .CALL => 23 | .RET => 24 | .IGL => 100

/-- Modelled from the spec: mnemonic lookup used by the opcode parser
(`Opcode::from` lives in the missing `instruction.rs`); unknown mnemonics map
to the `IGL` sentinel. -/
def opcode_from_str (s : String) : Opcode :=
  if s = "load" then .LOAD else if s = "add" then .ADD
  else if s = "sub" then .SUB else if s = "mul" then .MUL
  else if s = "div" then .DIV else if s = "hlt" then .HLT
  else if s = "jmp" then .JMP else if s = "jmpf" then .JMPF
  else if s = "jmpb" then .JMPB else if s = "eq" then .EQ
  else if s = "neq" then .NEQ else if s = "gte" then .GTE
  else if s = "lte" then .LTE else if s = "lt" then .LT
  else if s = "gt" then .GT else if s = "jmpe" then .JMPE
  else if s = "nop" then .NOP else if s = "aloc" then .ALOC
  else if s = "inc" then .INC else if s = "dec" then .DEC
  else if s = "djmpe" then .DJMPE else if s = "prts" then .PRTS
  else if s = "cloop" then .CLOOP else if s = "call" then .CALL
  else if s = "ret" then .RET else .IGL

/-- The `Token` enum of `assembler/mod.rs` (lines 20-29). Register indices
are `u8` and integer operands `i32` in the source; they are modelled as
`Nat`/`Int`, with the width narrowings applied where the source applies
them (at encoding time). -/
inductive Token where
  | Op (code : Opcode)
  | Register (reg_num : Nat)
  | IntegerOperand (value : Int)
  | LabelDeclaration (name : String)
  | LabelUsage (name : String)
  | Directive (name : String)
  | IrString (name : String)
  deriving DecidableEq

/-- `SymbolType` of `assembler/mod.rs` (lines 47-49). -/
inductive SymbolType where
  | Label
  deriving DecidableEq

/-- `Symbol` of `assembler/mod.rs` (lines 31-35): name, offset (`u32`,
modelled as `Nat`), and kind. -/
structure Symbol where
  name : String
  symbol_type : SymbolType
  offset : Nat
  deriving DecidableEq

/-- `SymbolTable` of `assembler/mod.rs` (lines 51-53): a growable vector of
symbols. -/
structure SymbolTable where
  symbols : List Symbol
  deriving DecidableEq

/-- `SymbolTable::add_symbol` (mod.rs lines 60-62): unconditionally pushes
the symbol at the end; no uniqueness check. -/
def SymbolTable.add_symbol (t : SymbolTable) (s : Symbol) : SymbolTable :=
  ⟨t.symbols ++ [s]⟩

/-- The scanning loop of `SymbolTable::symbol_value` (mod.rs lines 64-71):
returns the offset of the first symbol in vector order whose name matches. -/
def symbol_value_aux : List Symbol → String → Option Nat
  | [], _ => none
  | sym :: rest, s =>
    if sym.name = s then some sym.offset else symbol_value_aux rest s

/-- `SymbolTable::symbol_value` (mod.rs lines 64-71). -/
def SymbolTable.symbol_value (t : SymbolTable) (s : String) : Option Nat :=
  symbol_value_aux t.symbols s

/-- Modelled from the spec: `SymbolTable::has_symbol` is called by
`process_label_declaration` but its definition is not in the sources; the
spec gives `has(name) -> bool` as a plain existence check. -/
def SymbolTable.has_symbol (t : SymbolTable) (s : String) : Bool :=
  (t.symbol_value s).isSome

/-- Modelled from the spec: the list walk of `SymbolTable::set_symbol_offset`
(called by `handle_asciiz`; its definition is not in the sources). Per the
spec it is "used to patch a label's address after it has been declared";
it updates the first symbol with the given name and leaves the rest alone. -/
def set_symbol_offset_aux : List Symbol → String → Nat → List Symbol
  | [], _, _ => []
  | sym :: rest, s, off =>
    if sym.name = s then { sym with offset := off } :: rest
    else sym :: set_symbol_offset_aux rest s off

/-- Modelled from the spec: `SymbolTable::set_symbol_offset` (see
`set_symbol_offset_aux`). -/
def SymbolTable.set_symbol_offset (t : SymbolTable) (s : String) (off : Nat) :
    SymbolTable :=
  ⟨set_symbol_offset_aux t.symbols s off⟩

/-- `AssemblerInstruction` of `instruction_parsers.rs` (lines 10-18). -/
structure AssemblerInstruction where
  opcode : Option Token
  label : Option Token
  directive : Option Token
  operand1 : Option Token
  operand2 : Option Token
  operand3 : Option Token
  deriving DecidableEq

namespace AssemblerInstruction

/-- Modelled from the spec: `AssemblerInstruction::is_label` (called by
`process_first_phase`, definition not in the sources): whether the
instruction carries a label field. -/
def is_label (i : AssemblerInstruction) : Bool := i.label.isSome

/-- Modelled from the spec: `AssemblerInstruction::is_opcode` (called by
`process_second_phase`, definition not in the sources). -/
def is_opcode (i : AssemblerInstruction) : Bool := i.opcode.isSome

/-- Modelled from the spec: `AssemblerInstruction::is_directive` (called by
both phases, definition not in the sources). -/
def is_directive (i : AssemblerInstruction) : Bool := i.directive.isSome

/-- Modelled from the spec: `AssemblerInstruction::get_label_name`
(definition not in the sources): the name of the declared label, when the
label field holds a label-declaration token. -/
def get_label_name (i : AssemblerInstruction) : Option String :=
  match i.label with
  | some (Token.LabelDeclaration name) => some name
  | _ => none

/-- Modelled from the spec: `AssemblerInstruction::get_directive_name`
(definition not in the sources). -/
def get_directive_name (i : AssemblerInstruction) : Option String :=
  match i.directive with
  | some (Token.Directive name) => some name
  | _ => none

/-- Modelled from the spec: `AssemblerInstruction::get_string_constant`
(definition not in the sources): the string-literal content of the first
operand, used by `.asciiz` handling. -/
def get_string_constant (i : AssemblerInstruction) : Option String :=
  match i.operand1 with
  | some (Token.IrString name) => some name
  | _ => none

/-- Modelled from the spec: `AssemblerInstruction::has_operands` (used by
the directive dispatcher, definition not in the sources). -/
def has_operands (i : AssemblerInstruction) : Bool :=
  i.operand1.isSome || i.operand2.isSome || i.operand3.isSome

end AssemblerInstruction

/-- `Program` of `program_parsers.rs` (lines 5-8). -/
structure Program where
  instructions : List AssemblerInstruction
  deriving DecidableEq

/-- `AssemblerPhase` of `assembler/mod.rs` (lines 279-283). -/
inductive AssemblerPhase where
  | First
  | Second
  deriving DecidableEq

/-- `AssemblerSection` of `assembler/mod.rs` (lines 291-296). -/
inductive AssemblerSection where
  | Data (starting_instruction : Option Nat)
  | Code (starting_instruction : Option Nat)
  | Unknown
  deriving DecidableEq

/-- `From<&str> for AssemblerSection` (mod.rs lines 304-312). -/
def section_from_name (name : String) : AssemblerSection :=
  if name = "data" then .Data none
  else if name = "code" then .Code none
  else .Unknown

/-- Modelled from the spec: `AssemblerError` (`assembler_errors.rs` is not in
the sources). Constructors follow the error taxonomy of the spec and the
variants used in `mod.rs`: a grammar failure carrying the parser diagnostic,
the three accumulated pass-1 errors, and the section-count gate error. -/
inductive AssemblerError where
  | ParseError (error : String)
  | NoSegmentDeclarationFound (instruction : Nat)
  | StringConstantDeclaredWithoutLabel (instruction : Nat)
  | SymbolAlreadyDeclared
  | InsufficientSections
  deriving DecidableEq

/-- The `Assembler` state struct of `assembler/mod.rs` (lines 74-94). -/
structure Assembler where
  phase : AssemblerPhase
  symbols : SymbolTable
  ro : List Nat
  bytecode : List Nat
  ro_offset : Nat
  sections : List AssemblerSection
  current_section : Option AssemblerSection
  current_instruction : Nat
  errors : List AssemblerError
  deriving DecidableEq

/-- `Assembler::new` (mod.rs lines 97-109). -/
def Assembler.new : Assembler :=
  { phase := .First
    symbols := ⟨[]⟩
    ro := []
    bytecode := []
    ro_offset := 0
    sections := []
    current_section := none
    current_instruction := 0
    errors := [] }

/-! ## Binary encoder (`instruction_parsers.rs` lines 21-73) -/

/-- The little-endian byte vector written by `write_i16::<LittleEndian>`
for a 16-bit pattern `u < 2^16`. -/
def le_bytes16 (u : Nat) : List Nat := [u % 256, (u / 256) % 256]

/-- The little-endian byte vector written by `write_u32::<LittleEndian>`
for a 32-bit pattern `u`. -/
def le_bytes32 (u : Nat) : List Nat :=
  [u % 256, (u / 256) % 256, (u / 65536) % 256, (u / 16777216) % 256]

/-- `AssemblerInstruction::extract_operand` (instruction_parsers.rs lines
48-73), returning the bytes pushed onto `results`. An integer operand is
narrowed `as i16` (two's-complement pattern `value.emod 65536`), written
little-endian, and pushed as `wtr[1]` then `wtr[0]`; a label usage writes the
resolved `u32` offset little-endian and likewise pushes `wtr[1]` then
`wtr[0]`; an unresolved label or any other token pushes nothing (logged). -/
def extract_operand (t : Token) (symbols : SymbolTable) : List Nat :=
  match t with
  | .Register reg_num => [reg_num]
  | .IntegerOperand value =>
    let wtr := le_bytes16 (value.emod 65536).toNat
    [wtr.getD 1 0, wtr.getD 0 0]
  | .LabelUsage name =>
    match symbols.symbol_value name with
    | some value =>
      let wtr := le_bytes32 value
      [wtr.getD 1 0, wtr.getD 0 0]
    | none => []
  | _ => []

/-- `AssemblerInstruction::to_bytes` (instruction_parsers.rs lines 21-46):
the opcode byte (when the opcode field holds an `Op` token; any other token
there is logged and contributes nothing), then the operand bytes in operand
order, then zero padding `while results.len() < 4`. -/
def AssemblerInstruction.to_bytes (i : AssemblerInstruction)
    (symbols : SymbolTable) : List Nat :=
  let results : List Nat :=
    match i.opcode with
    | some (Token.Op code) => [opcode_byte code]
    | _ => []
  let results := results ++
    (match i.operand1 with
     | some t => extract_operand t symbols
     | none => [])
  let results := results ++
    (match i.operand2 with
     | some t => extract_operand t symbols
     | none => [])
  let results := results ++
    (match i.operand3 with
     | some t => extract_operand t symbols
     | none => [])
  results ++ List.replicate (4 - results.length) 0

/-! ## Assembler driver (`assembler/mod.rs`) -/

/-- UTF-8 encoding of one character, the byte sequence `str::as_bytes`
yields per character. -/
def utf8_encode_char (c : Char) : List Nat :=
  let n := c.toNat
  if n < 128 then [n]
  else if n < 2048 then [192 + n / 64, 128 + n % 64]
  else if n < 65536 then
    [224 + n / 4096, 128 + (n / 64) % 64, 128 + n % 64]
  else
    [240 + n / 262144, 128 + (n / 4096) % 64, 128 + (n / 64) % 64,
     128 + n % 64]

/-- The byte sequence of a string (`str::as_bytes`). -/
def str_bytes (s : String) : List Nat :=
  (s.data.map utf8_encode_char).flatten

/-- `Assembler::process_section_header` (mod.rs lines 206-217): convert the
name, ignore `Unknown`, otherwise push onto the seen-sections list and make
it current. -/
def process_section_header (st : Assembler) (header_name : String) :
    Assembler :=
  let new_section := section_from_name header_name
  if new_section = .Unknown then st
  else { st with sections := st.sections ++ [new_section]
                 current_section := some new_section }

/-- `Assembler::handle_asciiz` (mod.rs lines 219-245): only in phase
`First`; requires a string constant and a label name; patches the label's
offset to the current read-only cursor, then pushes each byte of the string
advancing the cursor, then a single NUL byte advancing it once more. -/
def handle_asciiz (st : Assembler) (i : AssemblerInstruction) : Assembler :=
  if st.phase ≠ .First then st
  else
    match i.get_string_constant with
    | none => st
    | some s =>
      match i.get_label_name with
      | none => st
      | some name =>
        let st :=
          { st with symbols := st.symbols.set_symbol_offset name st.ro_offset }
        let st := (str_bytes s).foldl
          (fun st b => { st with ro := st.ro ++ [b],
                                 ro_offset := st.ro_offset + 1 }) st
        { st with ro := st.ro ++ [0], ro_offset := st.ro_offset + 1 }

/-- Modelled from the spec: `Assembler::process_directive` is called from
both phases but its definition is not in the sources. Per the spec,
directives with operands dispatch on the name — only `.asciiz` has defined
semantics (others are ignored) — while operand-less directives are treated
as section headers; a directive token with no name is ignored. -/
def process_directive (st : Assembler) (i : AssemblerInstruction) :
    Assembler :=
  match i.get_directive_name with
  | none => st
  | some directive_name =>
    if i.has_operands then
      if directive_name = "asciiz" then handle_asciiz st i else st
    else
      process_section_header st directive_name

/-- Modelled from the spec: `Assembler::process_label_declaration` (mod.rs
lines 163-182) reads the label name, reports `StringConstantDeclaredWithoutLabel`
when there is none and `SymbolAlreadyDeclared` on a name collision, and
otherwise registers the symbol; the source's registering call
`Symbol::new(name, SymbolType::Label)` omits the offset the `Symbol`
constructor requires (it does not type-check), so the registered offset is
modelled from the spec's address-cursor rule — "register the label at the
current address cursor", the cursor advancing one 4-byte word per
instruction — which is exactly the rule of the source's `extract_labels`
(mod.rs lines 247-262): 4 times the current instruction index. -/
def process_label_declaration (st : Assembler) (i : AssemblerInstruction) :
    Assembler :=
  match i.get_label_name with
  | none =>
    { st with errors := st.errors ++
        [.StringConstantDeclaredWithoutLabel st.current_instruction] }
  | some name =>
    if st.symbols.has_symbol name then
      { st with errors := st.errors ++ [.SymbolAlreadyDeclared] }
    else
      { st with symbols :=
          st.symbols.add_symbol ⟨name, .Label, 4 * st.current_instruction⟩ }

/-- The label if-block of the pass-1 loop (mod.rs lines 141-151): labels
need an open section (the source line checks
`self.current_instruction.is_some()`, which does not type-check on a `u32`;
per the spec — "a section must already be open" — it is modelled as the
check that `current_section` is set). -/
def label_step (st : Assembler) (i : AssemblerInstruction) : Assembler :=
  if i.is_label then
    if st.current_section.isSome then process_label_declaration st i
    else { st with errors := st.errors ++
            [.NoSegmentDeclarationFound st.current_instruction] }
  else st

/-- The directive if-block shared by both loop bodies (mod.rs lines 153-155
and 196-198). -/
def directive_step (st : Assembler) (i : AssemblerInstruction) : Assembler :=
  if i.is_directive then process_directive st i else st

/-- One iteration of the pass-1 loop of `Assembler::process_first_phase`
(mod.rs lines 139-161): the label block, the directive block, and the
counter advance. -/
def first_step (st : Assembler) (i : AssemblerInstruction) : Assembler :=
  let st := label_step st i
  let st := directive_step st i
  { st with current_instruction := st.current_instruction + 1 }

/-- `Assembler::process_first_phase` (mod.rs lines 139-161). -/
def process_first_phase (st : Assembler) (p : Program) : Assembler :=
  let st := p.instructions.foldl first_step st
  { st with phase := .Second }

/-- One iteration of the pass-2 loop of `Assembler::process_second_phase`
(mod.rs lines 185-204): opcode instructions append their encoding to the
body, directives are dispatched again, and the counter advances. -/
def second_step (acc : Assembler × List Nat) (i : AssemblerInstruction) :
    Assembler × List Nat :=
  let (st, program) := acc
  let program :=
    if i.is_opcode then program ++ i.to_bytes st.symbols else program
  let st := directive_step st i
  ({ st with current_instruction := st.current_instruction + 1 }, program)

/-- `Assembler::process_second_phase` (mod.rs lines 185-204): resets the
instruction counter and folds `second_step` over the program, returning the
final state and the body bytes. -/
def process_second_phase (st : Assembler) (p : Program) :
    Assembler × List Nat :=
  p.instructions.foldl second_step ({ st with current_instruction := 0 }, [])

/-- `PIE_HEADER_PREFIX` (mod.rs line 17). -/
def pie_header_magic : List Nat := [45, 50, 49, 45]

/-- `PIE_HEADER_LENGTH` (mod.rs line 18). -/
def PIE_HEADER_LENGTH : Nat := 64

/-- The padding loop of `Assembler::write_pie_header` (mod.rs lines 271-273):
`while header.len() <= PIE_HEADER_LENGTH { header.push(0) }`. The fuel
argument only bounds the iteration count for structural recursion; 200
iterations more than suffice to leave the loop. -/
def pad_header : Nat → List Nat → List Nat
  | 0, header => header
  | fuel + 1, header =>
    if header.length ≤ PIE_HEADER_LENGTH then pad_header fuel (header ++ [0])
    else header

/-- `Assembler::write_pie_header` (mod.rs lines 264-276). -/
def write_pie_header : List Nat := pad_header 200 pie_header_magic

/-- The post-parse part of `Assembler::assemble` (mod.rs lines 113-129): the
header is produced, pass 1 runs; accumulated errors fail the run returning
the whole list; a section count other than two fails the run with
`InsufficientSections` appended; otherwise pass 2 produces the body, which
is appended to the header. -/
def assemble_program (p : Program) : Except (List AssemblerError) (List Nat) :=
  let assembled_program := write_pie_header
  let st := process_first_phase Assembler.new p
  if st.errors.isEmpty then
    if st.sections.length ≠ 2 then
      .error (st.errors ++ [.InsufficientSections])
    else
      .ok (assembled_program ++ (process_second_phase st p).2)
  else
    .error st.errors

/-! ## Grammar (`opcode_parsers.rs`, `operand_parsers.rs`,
`instruction_parsers.rs`, `program_parsers.rs`)

Parsers are functions `List Char → Option (α × List Char)` returning the
parsed value and the unconsumed remainder, mirroring nom's
`CompleteStr`-based combinators. -/

/-- The whitespace class of nom's `multispace` (space, tab, carriage
return, newline), which `ws!` skips around its inner parsers. -/
def is_space_char (c : Char) : Bool :=
  c = ' ' || c = '\t' || c = '\r' || c = '\n'

/-- Skip leading `multispace` characters (the effect of `ws!`). -/
def skip_ws (s : List Char) : List Char := s.dropWhile is_space_char

/-- Numeric value of a digit run (`parse::<i32>` / `parse::<u8>` on the
matched digits; the source `unwrap`s, so only in-range runs occur in
practice). -/
def digits_to_nat (ds : List Char) : Nat :=
  ds.foldl (fun n c => 10 * n + (c.toNat - 48)) 0

/-- `integer_operand` (operand_parsers.rs lines 8-18): `ws!`-wrapped `#`
followed by digits. -/
def integer_operand (s : List Char) : Option (Token × List Char) :=
  match skip_ws s with
  | '#' :: rest =>
    let ds := rest.takeWhile Char.isDigit
    if ds.isEmpty then none
    else some (Token.IntegerOperand (Int.ofNat (digits_to_nat ds)),
               skip_ws (rest.drop ds.length))
  | _ => none

/-- Modelled from the spec: the `register` parser (`register_parsers.rs` is
not in the sources): `$` followed by digits, `ws!`-wrapped, yielding a small
unsigned register index. -/
def register (s : List Char) : Option (Token × List Char) :=
  match skip_ws s with
  | '$' :: rest =>
    let ds := rest.takeWhile Char.isDigit
    if ds.isEmpty then none
    else some (Token.Register (digits_to_nat ds),
               skip_ws (rest.drop ds.length))
  | _ => none

/-- The single-quote delimiter character of `irstring`. -/
def quote_char : Char := Char.ofNat 39

/-- `irstring` (operand_parsers.rs lines 35-44): a single-quote, then
`take_until!` the next single-quote, then the closing quote; not
`ws!`-wrapped. -/
def irstring (s : List Char) : Option (Token × List Char) :=
  match s with
  | c :: rest =>
    if c = quote_char then
      let content := rest.takeWhile (fun d => d ≠ quote_char)
      match rest.drop content.length with
      | d :: rem => if d = quote_char
          then some (Token.IrString ⟨content⟩, rem) else none
      | [] => none
    else none
  | [] => none

/-- `operand` (operand_parsers.rs lines 27-33): the alternation
`integer_operand | register | irstring`, first match wins. -/
def operand (s : List Char) : Option (Token × List Char) :=
  integer_operand s <|> register s <|> irstring s

/-- Modelled from the spec: `label_declaration` (`label_parsers.rs` is not
in the sources): a `ws!`-wrapped alphanumeric identifier immediately
followed by `:`. -/
def label_declaration (s : List Char) : Option (Token × List Char) :=
  let s := skip_ws s
  let t := s.takeWhile Char.isAlphanum
  if t.isEmpty then none
  else
    match s.drop t.length with
    | ':' :: rest => some (Token.LabelDeclaration ⟨t⟩, skip_ws rest)
    | _ => none

/-- `opcode` (opcode_parsers.rs lines 7-16): `alpha1` mapped through the
mnemonic table (unknown mnemonics yield the `IGL` sentinel); no whitespace
handling of its own. -/
def opcode (s : List Char) : Option (Token × List Char) :=
  let t := s.takeWhile Char.isAlpha
  if t.isEmpty then none
  else some (Token.Op (opcode_from_str ⟨t⟩), s.drop t.length)

/-- `instruction_combined` (instruction_parsers.rs lines 76-94): optional
label declaration, an opcode, then up to three optional operands; the
directive field is always `None`. -/
def instruction_combined (s : List Char) :
    Option (AssemblerInstruction × List Char) :=
  let (l, s) :=
    match label_declaration s with
    | some (t, s1) => (some t, s1)
    | none => (none, s)
  match opcode s with
  | none => none
  | some (o, s) =>
    let (o1, s) :=
      match operand s with
      | some (t, s1) => (some t, s1)
      | none => (none, s)
    let (o2, s) :=
      match operand s with
      | some (t, s1) => (some t, s1)
      | none => (none, s)
    let (o3, s) :=
      match operand s with
      | some (t, s1) => (some t, s1)
      | none => (none, s)
    some ({ opcode := some o, label := l, directive := none,
            operand1 := o1, operand2 := o2, operand3 := o3 }, s)

/-- The repetition loop of nom's `many1!` over `instruction_combined`:
keeps parsing instructions until one fails, accumulating them in order. The
fuel only bounds the iteration count for structural recursion; every
successful `instruction_combined` consumes at least one character, so fuel
equal to the input length suffices. -/
def many1_aux : Nat → List Char → List AssemblerInstruction →
    List AssemblerInstruction × List Char
  | 0, s, acc => (acc, s)
  | fuel + 1, s, acc =>
    match instruction_combined s with
    | some (i, s1) => many1_aux fuel s1 (acc ++ [i])
    | none => (acc, s)

/-- `program` (program_parsers.rs lines 22-31): `many1!` instructions;
fails when not even one instruction parses, otherwise returns the parsed
instructions and the unconsumed remainder. -/
def program (s : List Char) : Option (Program × List Char) :=
  match instruction_combined s with
  | none => none
  | some (i, s1) =>
    let (is, rem) := many1_aux s1.length s1 [i]
    some (⟨is⟩, rem)

/-- `Assembler::assemble` (mod.rs lines 111-136): parse, then run the
two-pass driver on the parsed program — the parse remainder `_remainder` is
discarded; a parse failure returns a single `ParseError` carrying the
parser diagnostic. -/
def assemble (raw : String) : Except (List AssemblerError) (List Nat) :=
  match program raw.data with
  | some (p, _remainder) => assemble_program p
  | none => .error [.ParseError "parse failure"]

/-! ## Auxiliary definitions used by the statements -/

/-- The opcode-byte part of `to_bytes` (the first push of
`instruction_parsers.rs` lines 23-35). -/
def opcode_bytes (i : AssemblerInstruction) : List Nat :=
  match i.opcode with
  | some (Token.Op code) => [opcode_byte code]
  | _ => []

/-- The operand-byte part of `to_bytes` (the pushes of
`instruction_parsers.rs` lines 36-40): the concatenated operand encodings in
operand order. -/
def encoded_operands (i : AssemblerInstruction) (symbols : SymbolTable) :
    List Nat :=
  (match i.operand1 with
   | some t => extract_operand t symbols
   | none => []) ++
  (match i.operand2 with
   | some t => extract_operand t symbols
   | none => []) ++
  (match i.operand3 with
   | some t => extract_operand t symbols
   | none => [])

/-- Whether an instruction is a section-establishing directive: an
operand-less directive whose name converts to a known section (`.data` or
`.code`); exactly the instructions through which `process_directive` reaches
`process_section_header` with effect. -/
def establishes_section (i : AssemblerInstruction) : Bool :=
  match i.get_directive_name with
  | some n => !i.has_operands && !(section_from_name n = .Unknown : Bool)
  | none => false

/-! ## Concrete example instructions and programs -/

/-- A bare `.data` section directive instruction. -/
def exDataDir : AssemblerInstruction :=
  { opcode := none, label := none, directive := some (.Directive "data"),
    operand1 := none, operand2 := none, operand3 := none }

/-- A bare `.code` section directive instruction. -/
def exCodeDir : AssemblerInstruction :=
  { opcode := none, label := none, directive := some (.Directive "code"),
    operand1 := none, operand2 := none, operand3 := none }

/-- `hlt`. -/
def exHlt : AssemblerInstruction :=
  { opcode := some (.Op .HLT), label := none, directive := none,
    operand1 := none, operand2 := none, operand3 := none }

/-- `hello: inc $0`. -/
def exInc : AssemblerInstruction :=
  { opcode := some (.Op .INC), label := some (.LabelDeclaration "hello"),
    directive := none, operand1 := some (.Register 0),
    operand2 := none, operand3 := none }

/-- `jmp @hello`. -/
def exJmp : AssemblerInstruction :=
  { opcode := some (.Op .JMP), label := none, directive := none,
    operand1 := some (.LabelUsage "hello"), operand2 := none,
    operand3 := none }

/-- `load $0 #100`. -/
def exLoad : AssemblerInstruction :=
  { opcode := some (.Op .LOAD), label := none, directive := none,
    operand1 := some (.Register 0), operand2 := some (.IntegerOperand 100),
    operand3 := none }

/-- `load #1 #2`: an opcode instruction with two integer operands, whose
operands encode to four bytes. -/
def exLoadII : AssemblerInstruction :=
  { opcode := some (.Op .LOAD), label := none, directive := none,
    operand1 := some (.IntegerOperand 1), operand2 := some (.IntegerOperand 2),
    operand3 := none }

/-- `x: hlt` (a labelled opcode instruction). -/
def exLabelHlt : AssemblerInstruction :=
  { opcode := some (.Op .HLT), label := some (.LabelDeclaration "x"),
    directive := none, operand1 := none, operand2 := none, operand3 := none }

/-- `msg: .asciiz 'Hi'`. -/
def exAsciiz : AssemblerInstruction :=
  { opcode := none, label := some (.LabelDeclaration "msg"),
    directive := some (.Directive "asciiz"),
    operand1 := some (.IrString "Hi"), operand2 := none, operand3 := none }

/-- The sole instruction the program parser extracts from `"hlt\n???"`. -/
def exParsedHlt : AssemblerInstruction :=
  { opcode := some (.Op .HLT), label := none, directive := none,
    operand1 := none, operand2 := none, operand3 := none }

/-- `.data` / `.code` / `hlt` as a program value. -/
def exProg1 : Program := ⟨[exDataDir, exCodeDir, exHlt]⟩

/-- `.data` / `.code` / `hello: inc $0` / `jmp @hello` / `hlt` as a program
value. -/
def exProg2 : Program := ⟨[exDataDir, exCodeDir, exInc, exJmp, exHlt]⟩

/-- `.data` / `.code` / `load #1 #2` as a program value. -/
def exProg3 : Program := ⟨[exDataDir, exCodeDir, exLoadII]⟩

/-- `.data` / `.code` / `load $0 #100` as a program value. -/
def exProg4 : Program := ⟨[exDataDir, exCodeDir, exLoad]⟩

/-- `x: hlt` as a whole program (no section directives). -/
def exProg5 : Program := ⟨[exLabelHlt]⟩

/-- The empty program value. -/
def exProgEmpty : Program := ⟨[]⟩

/-! ## Symbol-table lemmas -/

lemma symbol_value_aux_append (l1 l2 : List Symbol) (n : String) :
    symbol_value_aux (l1 ++ l2) n =
      (symbol_value_aux l1 n <|> symbol_value_aux l2 n) := by
  induction l1 with
  | nil => simp [symbol_value_aux]
  | cons sym rest ih =>
    simp only [List.cons_append, symbol_value_aux]
    split
    · simp
    · exact ih

lemma add_symbol_symbol_value (t : SymbolTable) (s : Symbol) (n : String) :
    (t.add_symbol s).symbol_value n =
      (t.symbol_value n <|> if s.name = n then some s.offset else none) := by
  show symbol_value_aux (t.symbols ++ [s]) n = _
  rw [symbol_value_aux_append]
  simp [SymbolTable.symbol_value, symbol_value_aux]

lemma symbol_value_aux_eq_find (l : List Symbol) (n : String) :
    symbol_value_aux l n =
      (l.find? (fun sym => sym.name == n)).map Symbol.offset := by
  induction l with
  | nil => rfl
  | cons sym rest ih =>
    simp only [symbol_value_aux, List.find?]
    by_cases h : sym.name = n
    · simp [h]
    · simp only [h, if_false]
      rw [ih]
      have hb : (sym.name == n) = false := by
        simpa using h
      simp [hb]

lemma set_symbol_offset_aux_other (l : List Symbol) (m n : String) (v : Nat)
    (h : m ≠ n) :
    symbol_value_aux (set_symbol_offset_aux l m v) n = symbol_value_aux l n := by
  induction l with
  | nil => rfl
  | cons sym rest ih =>
    simp only [set_symbol_offset_aux]
    by_cases hm : sym.name = m
    · have hn : sym.name ≠ n := fun hc => h (hm ▸ hc ▸ rfl)
      simp [symbol_value_aux, hm, hn, h]
    · simp only [hm, if_false, symbol_value_aux, ih]

lemma set_symbol_offset_aux_none (l : List Symbol) (m n : String) (v : Nat)
    (h : symbol_value_aux l n = none) :
    symbol_value_aux (set_symbol_offset_aux l m v) n = none := by
  induction l with
  | nil => rfl
  | cons sym rest ih =>
    simp only [symbol_value_aux] at h
    by_cases hn : sym.name = n
    · simp [hn] at h
    · simp only [hn, if_false] at h
      simp only [set_symbol_offset_aux]
      by_cases hm : sym.name = m
      · have hmn : m ≠ n := fun hc => hn (hm.trans hc)
        simp [symbol_value_aux, hm, hn, h, hmn]
      · simp [symbol_value_aux, hm, hn, ih h]

lemma set_symbol_offset_none (t : SymbolTable) (m n : String) (v : Nat)
    (h : t.symbol_value n = none) :
    (t.set_symbol_offset m v).symbol_value n = none :=
  set_symbol_offset_aux_none t.symbols m n v h

lemma set_symbol_offset_other (t : SymbolTable) (m n : String) (v : Nat)
    (h : m ≠ n) :
    (t.set_symbol_offset m v).symbol_value n = t.symbol_value n :=
  set_symbol_offset_aux_other t.symbols m n v h

lemma has_symbol_false_iff (t : SymbolTable) (n : String) :
    t.has_symbol n = false ↔ t.symbol_value n = none := by
  unfold SymbolTable.has_symbol
  cases t.symbol_value n <;> simp

/-! ## Frame lemmas for the driver steps -/

lemma ro_fold (l : List Nat) : ∀ st : Assembler,
    l.foldl (fun st b => { st with ro := st.ro ++ [b],
                                   ro_offset := st.ro_offset + 1 }) st
      = { st with ro := st.ro ++ l, ro_offset := st.ro_offset + l.length } := by
  induction l with
  | nil => intro st; simp
  | cons b rest ih =>
    intro st
    simp only [List.foldl_cons, ih, List.append_assoc, List.singleton_append,
      List.length_cons]
    congr 1
    omega

lemma pld_frame (st : Assembler) (i : AssemblerInstruction) :
    (process_label_declaration st i).current_instruction =
        st.current_instruction ∧
    (process_label_declaration st i).phase = st.phase ∧
    (process_label_declaration st i).current_section = st.current_section ∧
    (process_label_declaration st i).ro_offset = st.ro_offset := by
  unfold process_label_declaration
  split
  · exact ⟨rfl, rfl, rfl, rfl⟩
  · split
    · exact ⟨rfl, rfl, rfl, rfl⟩
    · exact ⟨rfl, rfl, rfl, rfl⟩

lemma pld_errors (st : Assembler) (i : AssemblerInstruction) :
    ∃ es, (process_label_declaration st i).errors = st.errors ++ es := by
  unfold process_label_declaration
  split
  · exact ⟨_, rfl⟩
  · split
    · exact ⟨_, rfl⟩
    · exact ⟨[], by simp⟩

lemma handle_asciiz_first (st : Assembler) (i : AssemblerInstruction)
    (name : String) (s : String)
    (hph : st.phase = .First) (hs : i.get_string_constant = some s)
    (hn : i.get_label_name = some name) :
    handle_asciiz st i =
      { st with symbols := st.symbols.set_symbol_offset name st.ro_offset,
                ro := st.ro ++ str_bytes s ++ [0],
                ro_offset := st.ro_offset + (str_bytes s).length + 1 } := by
  unfold handle_asciiz
  rw [hph]
  simp only [ne_eq, not_true_eq_false, if_false, hs, hn, ro_fold,
    List.append_assoc]

lemma handle_asciiz_not_first (st : Assembler) (i : AssemblerInstruction)
    (h : st.phase ≠ .First) : handle_asciiz st i = st := by
  unfold handle_asciiz
  simp [h]

lemma handle_asciiz_frame (st : Assembler) (i : AssemblerInstruction) :
    (handle_asciiz st i).errors = st.errors ∧
    (handle_asciiz st i).current_instruction = st.current_instruction ∧
    (handle_asciiz st i).current_section = st.current_section ∧
    (handle_asciiz st i).sections = st.sections ∧
    (handle_asciiz st i).phase = st.phase := by
  by_cases hph : st.phase = .First
  · rcases hs : i.get_string_constant with _ | s
    · unfold handle_asciiz
      simp [hph, hs]
    · rcases hn : i.get_label_name with _ | name
      · unfold handle_asciiz
        simp [hph, hs, hn]
      · rw [handle_asciiz_first st i name s hph hs hn]
        exact ⟨rfl, rfl, rfl, rfl, rfl⟩
  · rw [handle_asciiz_not_first st i hph]
    exact ⟨rfl, rfl, rfl, rfl, rfl⟩

lemma handle_asciiz_symbols (st : Assembler) (i : AssemblerInstruction) :
    (handle_asciiz st i).symbols = st.symbols ∨
    ∃ name, i.get_label_name = some name ∧
      (handle_asciiz st i).symbols =
        st.symbols.set_symbol_offset name st.ro_offset := by
  by_cases hph : st.phase = .First
  · rcases hs : i.get_string_constant with _ | s
    · left
      unfold handle_asciiz
      simp [hph, hs]
    · rcases hn : i.get_label_name with _ | name
      · left
        unfold handle_asciiz
        simp [hph, hs, hn]
      · right
        exact ⟨name, rfl, by rw [handle_asciiz_first st i name s hph hs hn]⟩
  · left
    rw [handle_asciiz_not_first st i hph]

lemma psh_frame (st : Assembler) (n : String) :
    (process_section_header st n).errors = st.errors ∧
    (process_section_header st n).symbols = st.symbols ∧
    (process_section_header st n).current_instruction =
        st.current_instruction ∧
    (process_section_header st n).phase = st.phase ∧
    (process_section_header st n).ro_offset = st.ro_offset := by
  by_cases h : section_from_name n = .Unknown <;>
    simp [process_section_header, h]

lemma pd_frame (st : Assembler) (i : AssemblerInstruction) :
    (process_directive st i).errors = st.errors ∧
    (process_directive st i).current_instruction = st.current_instruction ∧
    (process_directive st i).phase = st.phase := by
  unfold process_directive
  split
  · exact ⟨rfl, rfl, rfl⟩
  · split
    · split
      · exact ⟨(handle_asciiz_frame st i).1, (handle_asciiz_frame st i).2.1,
          (handle_asciiz_frame st i).2.2.2.2⟩
      · exact ⟨rfl, rfl, rfl⟩
    · exact ⟨(psh_frame st _).1, (psh_frame st _).2.2.1,
        (psh_frame st _).2.2.2.1⟩

lemma pd_symbols (st : Assembler) (i : AssemblerInstruction) :
    (process_directive st i).symbols = st.symbols ∨
    ∃ name, i.get_label_name = some name ∧
      (process_directive st i).symbols =
        st.symbols.set_symbol_offset name st.ro_offset := by
  unfold process_directive
  split
  · exact Or.inl rfl
  · split
    · split
      · exact handle_asciiz_symbols st i
      · exact Or.inl rfl
    · exact Or.inl (psh_frame st _).2.1

lemma pd_symbols_second (st : Assembler) (i : AssemblerInstruction)
    (h : st.phase = .Second) :
    (process_directive st i).symbols = st.symbols := by
  unfold process_directive
  split
  · rfl
  · split
    · split
      · rw [handle_asciiz_not_first st i (by rw [h]; intro hc; cases hc)]
      · rfl
    · exact (psh_frame st _).2.1

lemma pd_section_none (st : Assembler) (i : AssemblerInstruction)
    (h : establishes_section i = false) :
    (process_directive st i).current_section = st.current_section := by
  unfold process_directive
  rcases hd : i.get_directive_name with _ | n
  · rfl
  · by_cases ho : i.has_operands
    · simp only [ho, if_true]
      split
      · exact (handle_asciiz_frame st i).2.2.1
      · rfl
    · unfold establishes_section at h
      rw [hd] at h
      simp only [ho, Bool.not_false, Bool.true_and] at h
      have hu : section_from_name n = .Unknown := by
        by_contra hc
        simp [hc] at h
      simp only [ho, if_false]
      unfold process_section_header
      rw [hu]
      simp

/-! ## Pass-1 fold invariants -/

lemma label_step_frame (st : Assembler) (i : AssemblerInstruction) :
    (label_step st i).current_instruction = st.current_instruction ∧
    (label_step st i).phase = st.phase ∧
    (label_step st i).current_section = st.current_section ∧
    (label_step st i).ro_offset = st.ro_offset := by
  unfold label_step
  split
  · split
    · exact ⟨(pld_frame st i).1, (pld_frame st i).2.1, (pld_frame st i).2.2.1,
        (pld_frame st i).2.2.2⟩
    · exact ⟨rfl, rfl, rfl, rfl⟩
  · exact ⟨rfl, rfl, rfl, rfl⟩

lemma label_step_errors (st : Assembler) (i : AssemblerInstruction) :
    ∃ es, (label_step st i).errors = st.errors ++ es := by
  unfold label_step
  split
  · split
    · exact pld_errors st i
    · exact ⟨_, rfl⟩
  · exact ⟨[], by simp⟩

lemma directive_step_frame (st : Assembler) (i : AssemblerInstruction) :
    (directive_step st i).errors = st.errors ∧
    (directive_step st i).current_instruction = st.current_instruction ∧
    (directive_step st i).phase = st.phase := by
  unfold directive_step
  split
  · exact ⟨(pd_frame st i).1, (pd_frame st i).2.1, (pd_frame st i).2.2⟩
  · exact ⟨rfl, rfl, rfl⟩

lemma directive_step_symbols (st : Assembler) (i : AssemblerInstruction) :
    (directive_step st i).symbols = st.symbols ∨
    ∃ name, i.get_label_name = some name ∧
      (directive_step st i).symbols =
        st.symbols.set_symbol_offset name st.ro_offset := by
  unfold directive_step
  split
  · exact pd_symbols st i
  · exact Or.inl rfl

lemma directive_step_symbols_second (st : Assembler) (i : AssemblerInstruction)
    (h : st.phase = .Second) :
    (directive_step st i).symbols = st.symbols := by
  unfold directive_step
  split
  · exact pd_symbols_second st i h
  · rfl

lemma first_step_ci (st : Assembler) (i : AssemblerInstruction) :
    (first_step st i).current_instruction = st.current_instruction + 1 := by
  show (directive_step (label_step st i) i).current_instruction + 1 = _
  rw [(directive_step_frame _ i).2.1, (label_step_frame st i).1]

lemma first_step_phase (st : Assembler) (i : AssemblerInstruction) :
    (first_step st i).phase = st.phase := by
  show (directive_step (label_step st i) i).phase = _
  rw [(directive_step_frame _ i).2.2, (label_step_frame st i).2.1]

lemma first_step_errors (st : Assembler) (i : AssemblerInstruction) :
    ∃ es, (first_step st i).errors = st.errors ++ es := by
  obtain ⟨es, he⟩ := label_step_errors st i
  refine ⟨es, ?_⟩
  show (directive_step (label_step st i) i).errors = _
  rw [(directive_step_frame _ i).1, he]

lemma fold_errors_append (l : List AssemblerInstruction) : ∀ st : Assembler,
    ∃ es, (l.foldl first_step st).errors = st.errors ++ es := by
  induction l with
  | nil => exact fun st => ⟨[], by simp⟩
  | cons i rest ih =>
    intro st
    obtain ⟨es1, h1⟩ := first_step_errors st i
    obtain ⟨es2, h2⟩ := ih (first_step st i)
    exact ⟨es1 ++ es2, by simp only [List.foldl_cons, h2, h1,
      List.append_assoc]⟩

lemma fold_errors_nil (l : List AssemblerInstruction) (st : Assembler)
    (h : (l.foldl first_step st).errors = []) : st.errors = [] := by
  obtain ⟨es, he⟩ := fold_errors_append l st
  rw [he] at h
  exact (List.append_eq_nil.mp h).1

lemma fold_errors_mem (l : List AssemblerInstruction) (st : Assembler)
    (e : AssemblerError) (h : e ∈ st.errors) :
    e ∈ (l.foldl first_step st).errors := by
  obtain ⟨es, he⟩ := fold_errors_append l st
  rw [he]
  exact List.mem_append_left _ h

lemma fold_ci (l : List AssemblerInstruction) : ∀ st : Assembler,
    (l.foldl first_step st).current_instruction =
      st.current_instruction + l.length := by
  induction l with
  | nil => intro st; simp
  | cons i rest ih =>
    intro st
    simp only [List.foldl_cons, ih, first_step_ci, List.length_cons]
    omega

lemma fold_phase (l : List AssemblerInstruction) : ∀ st : Assembler,
    (l.foldl first_step st).phase = st.phase := by
  induction l with
  | nil => intro st; rfl
  | cons i rest ih =>
    intro st
    simp only [List.foldl_cons, ih, first_step_phase]

lemma label_step_id_of_not_label (st : Assembler) (i : AssemblerInstruction)
    (hil : ¬ i.is_label = true) : label_step st i = st := by
  unfold label_step
  simp [hil]

lemma get_label_name_none_of_not_label (i : AssemblerInstruction)
    (hil : ¬ i.is_label = true) : i.get_label_name = none := by
  unfold AssemblerInstruction.get_label_name
  rcases hlbl : i.label with _ | t
  · rfl
  · exact absurd (by simp [AssemblerInstruction.is_label, hlbl]) hil

lemma label_step_preserve (st : Assembler) (i : AssemblerInstruction)
    (l : String) (v : Nat)
    (hv : st.symbols.symbol_value l = some v)
    (hle : (label_step st i).errors = st.errors) :
    (label_step st i).symbols.symbol_value l = some v ∧
      ∀ n, i.get_label_name = some n → n ≠ l := by
  by_cases hil : i.is_label
  case neg =>
    rw [label_step_id_of_not_label st i hil]
    have hnone := get_label_name_none_of_not_label i hil
    exact ⟨hv, fun n hc => by rw [hnone] at hc; cases hc⟩
  case pos =>
    by_cases hsec : st.current_section.isSome
    case neg =>
      exfalso
      have hgrow : (label_step st i).errors = st.errors ++
          [.NoSegmentDeclarationFound st.current_instruction] := by
        unfold label_step
        simp [hil, hsec]
      rw [hgrow] at hle
      simp at hle
    case pos =>
      have hls : label_step st i = process_label_declaration st i := by
        unfold label_step
        simp [hil, hsec]
      rw [hls] at hle ⊢
      rcases hn : i.get_label_name with _ | n
      · exfalso
        have hgrow : (process_label_declaration st i).errors = st.errors ++
            [.StringConstantDeclaredWithoutLabel st.current_instruction] := by
          unfold process_label_declaration
          rw [hn]
        rw [hgrow] at hle
        simp at hle
      · by_cases hhas : st.symbols.has_symbol n
        · exfalso
          have hgrow : (process_label_declaration st i).errors = st.errors ++
              [.SymbolAlreadyDeclared] := by
            unfold process_label_declaration
            rw [hn]
            simp [hhas]
          rw [hgrow] at hle
          simp at hle
        · have hnl : n ≠ l := by
            intro hc
            subst hc
            rw [(has_symbol_false_iff st.symbols n).mp
              (by simpa using hhas)] at hv
            cases hv
          have hpld : (process_label_declaration st i).symbols =
              st.symbols.add_symbol
                ⟨n, .Label, 4 * st.current_instruction⟩ := by
            unfold process_label_declaration
            rw [hn]
            simp [hhas]
          constructor
          · rw [hpld, add_symbol_symbol_value]
            simp [hv, hnl]
          · intro m hm
            obtain rfl : n = m := Option.some.inj hm
            exact hnl

lemma first_step_preserve (st : Assembler) (i : AssemblerInstruction)
    (l : String) (v : Nat)
    (hv : st.symbols.symbol_value l = some v)
    (he : (first_step st i).errors = st.errors) :
    (first_step st i).symbols.symbol_value l = some v := by
  have hle : (label_step st i).errors = st.errors := by
    have hde : (first_step st i).errors = (label_step st i).errors :=
      (directive_step_frame _ i).1
    rw [← hde, he]
  obtain ⟨hpres, hfresh⟩ := label_step_preserve st i l v hv hle
  show (directive_step (label_step st i) i).symbols.symbol_value l = some v
  rcases directive_step_symbols (label_step st i) i with hsym | ⟨n, hn, hsym⟩
  · rw [hsym]
    exact hpres
  · rw [hsym]
    rw [set_symbol_offset_other _ _ _ _ (hfresh n hn)]
    exact hpres

lemma fold_preserve (l : List AssemblerInstruction) : ∀ (st : Assembler)
    (n : String) (v : Nat),
    st.symbols.symbol_value n = some v →
    (l.foldl first_step st).errors = [] →
    (l.foldl first_step st).symbols.symbol_value n = some v := by
  induction l with
  | nil => intro st n v hv _; exact hv
  | cons i rest ih =>
    intro st n v hv hfin
    simp only [List.foldl_cons] at hfin ⊢
    have h1 : (first_step st i).errors = [] := fold_errors_nil rest _ hfin
    have h0 : st.errors = [] := by
      obtain ⟨es, he⟩ := first_step_errors st i
      rw [he] at h1
      exact (List.append_eq_nil.mp h1).1
    exact ih _ n v (first_step_preserve st i n v hv (by rw [h1, h0])) hfin

lemma fold_registers (l : List AssemblerInstruction) : ∀ (st : Assembler)
    (j : Nat) (ij : AssemblerInstruction) (n : String),
    l.get? j = some ij →
    ij.label = some (.LabelDeclaration n) →
    ij.directive = none →
    (l.foldl first_step st).errors = [] →
    (l.foldl first_step st).symbols.symbol_value n =
      some (4 * (st.current_instruction + j)) := by
  induction l with
  | nil => intro st j ij n hj; simp at hj
  | cons i rest ih =>
    intro st j ij n hj hl hd hfin
    simp only [List.foldl_cons] at hfin ⊢
    have h1 : (first_step st i).errors = [] := fold_errors_nil rest _ hfin
    have h0 : st.errors = [] := by
      obtain ⟨es, he⟩ := first_step_errors st i
      rw [he] at h1
      exact (List.append_eq_nil.mp h1).1
    cases j with
    | zero =>
      have hij : ij = i := by
        have : some i = some ij := by simpa using hj
        exact (Option.some.inj this).symm
      subst hij
      have hlabel : ij.is_label = true := by
        simp [AssemblerInstruction.is_label, hl]
      have hname : ij.get_label_name = some n := by
        simp [AssemblerInstruction.get_label_name, hl]
      have hisdir : ij.is_directive = false := by
        simp [AssemblerInstruction.is_directive, hd]
      -- analyze the step on ij
      by_cases hsec : st.current_section.isSome
      · by_cases hhas : st.symbols.has_symbol n
        · -- a collision would push an error, contradicting hfin
          exfalso
          have hgrow : (first_step st ij).errors =
              st.errors ++ [.SymbolAlreadyDeclared] := by
            show (directive_step (label_step st ij) ij).errors = _
            rw [(directive_step_frame _ ij).1]
            unfold label_step
            simp only [hlabel, if_true, hsec]
            unfold process_label_declaration
            rw [hname]
            simp [hhas]
          rw [hgrow, h0] at h1
          simp at h1
        · -- registration happens at offset 4 * current_instruction
          have hreg : (first_step st ij).symbols.symbol_value n =
              some (4 * st.current_instruction) := by
            show (directive_step (label_step st ij) ij).symbols.symbol_value n
              = _
            unfold directive_step
            simp only [hisdir, Bool.false_eq_true, if_false]
            unfold label_step
            simp only [hlabel, if_true, hsec]
            unfold process_label_declaration
            rw [hname]
            simp only [hhas, Bool.false_eq_true, if_false]
            show (st.symbols.add_symbol _).symbol_value n = _
            rw [add_symbol_symbol_value]
            rw [(has_symbol_false_iff st.symbols n).mp (by simpa using hhas)]
            simp
          have hfold := fold_preserve rest (first_step st ij) n _ hreg hfin
          simpa using hfold
      · -- no open section would push an error, contradicting hfin
        exfalso
        have hgrow : (first_step st ij).errors = st.errors ++
            [.NoSegmentDeclarationFound st.current_instruction] := by
          show (directive_step (label_step st ij) ij).errors = _
          rw [(directive_step_frame _ ij).1]
          unfold label_step
          simp [hlabel, hsec]
        rw [hgrow, h0] at h1
        simp at h1
    | succ j1 =>
      have h := ih (first_step st i) j1 ij n (by simpa using hj) hl hd hfin
      rw [first_step_ci] at h
      have harith : st.current_instruction + 1 + j1 =
          st.current_instruction + (j1 + 1) := by omega
      rw [harith] at h
      exact h

lemma first_step_section (st : Assembler) (i : AssemblerInstruction)
    (h : establishes_section i = false) :
    (first_step st i).current_section = st.current_section := by
  show (directive_step (label_step st i) i).current_section = _
  have hd : (directive_step (label_step st i) i).current_section =
      (label_step st i).current_section := by
    unfold directive_step
    split
    · exact pd_section_none _ i h
    · rfl
  rw [hd, (label_step_frame st i).2.2.1]

lemma fold_section_none (l : List AssemblerInstruction) : ∀ st : Assembler,
    st.current_section = none →
    (∀ i ∈ l, establishes_section i = false) →
    (l.foldl first_step st).current_section = none := by
  induction l with
  | nil => intro st h _; exact h
  | cons i rest ih =>
    intro st h hall
    simp only [List.foldl_cons]
    refine ih _ ?_ (fun x hx => hall x (List.mem_cons_of_mem i hx))
    rw [first_step_section st i (hall i (List.mem_cons_self i rest))]
    exact h

lemma first_step_not_registered (st : Assembler) (i : AssemblerInstruction)
    (l : String)
    (hnone : st.symbols.symbol_value l = none)
    (hno : i.get_label_name ≠ some l) :
    (first_step st i).symbols.symbol_value l = none := by
  have hlab : (label_step st i).symbols.symbol_value l = none := by
    unfold label_step
    by_cases hil : i.is_label
    · by_cases hsec : st.current_section.isSome
      · simp only [hil, if_true, hsec]
        unfold process_label_declaration
        rcases hn : i.get_label_name with _ | n
        · exact hnone
        · by_cases hhas : st.symbols.has_symbol n
          · simp only [hhas, if_true]
            exact hnone
          · have hnl : n ≠ l := fun hc => hno (hc ▸ hn)
            simp only [hhas, Bool.false_eq_true, if_false]
            show (st.symbols.add_symbol _).symbol_value l = none
            rw [add_symbol_symbol_value, hnone]
            simp [hnl]
      · simp only [hil, if_true, hsec, Bool.false_eq_true, if_false]
        exact hnone
    · simp only [hil, Bool.false_eq_true, if_false]
      exact hnone
  show (directive_step (label_step st i) i).symbols.symbol_value l = none
  rcases directive_step_symbols (label_step st i) i with hsym | ⟨n, _, hsym⟩
  · rw [hsym]
    exact hlab
  · rw [hsym]
    exact set_symbol_offset_none _ _ _ _ hlab

lemma fold_not_registered (l : List AssemblerInstruction) :
    ∀ (st : Assembler) (n : String),
    st.symbols.symbol_value n = none →
    (∀ i ∈ l, i.get_label_name ≠ some n) →
    (l.foldl first_step st).symbols.symbol_value n = none := by
  induction l with
  | nil => intro st n h _; exact h
  | cons i rest ih =>
    intro st n h hall
    simp only [List.foldl_cons]
    exact ih _ n
      (first_step_not_registered st i n h (hall i (List.mem_cons_self i rest)))
      (fun x hx => hall x (List.mem_cons_of_mem i hx))

/-! ## Pass-2 fold lemmas -/

lemma second_fold (l : List AssemblerInstruction) :
    ∀ (st : Assembler) (bs : List Nat), st.phase = .Second →
    (l.foldl second_step (st, bs)).2 =
      bs ++ ((l.filter (fun i => i.is_opcode)).map
        (fun i => i.to_bytes st.symbols)).flatten ∧
    (l.foldl second_step (st, bs)).1.symbols = st.symbols ∧
    (l.foldl second_step (st, bs)).1.phase = .Second := by
  induction l with
  | nil => intro st bs h; exact ⟨by simp, rfl, h⟩
  | cons i rest ih =>
    intro st bs h
    simp only [List.foldl_cons]
    have hstep : second_step (st, bs) i =
        ({ directive_step st i with
            current_instruction := (directive_step st i).current_instruction
              + 1 },
         if i.is_opcode then bs ++ i.to_bytes st.symbols else bs) := rfl
    have hsym : (directive_step st i).symbols = st.symbols :=
      directive_step_symbols_second st i h
    have hph : (directive_step st i).phase = .Second := by
      rw [(directive_step_frame st i).2.2]
      exact h
    rw [hstep]
    obtain ⟨h1, h2, h3⟩ := ih { directive_step st i with
        current_instruction := (directive_step st i).current_instruction + 1 }
      (if i.is_opcode then bs ++ i.to_bytes st.symbols else bs) hph
    refine ⟨?_, by rw [h2]; exact hsym, h3⟩
    rw [h1]
    show _ = bs ++ (((i :: rest).filter (fun i => i.is_opcode)).map
      (fun i => i.to_bytes st.symbols)).flatten
    by_cases hop : i.is_opcode
    · rw [List.filter_cons_of_pos (by exact hop)]
      simp only [hop, if_true, List.map_cons, List.flatten_cons,
        List.append_assoc]
      rw [show ({ directive_step st i with
          current_instruction := (directive_step st i).current_instruction
            + 1 } : Assembler).symbols = st.symbols from hsym]
    · rw [List.filter_cons_of_neg (by simpa using hop)]
      simp only [hop, Bool.false_eq_true, if_false]
      rw [show ({ directive_step st i with
          current_instruction := (directive_step st i).current_instruction
            + 1 } : Assembler).symbols = st.symbols from hsym]

/-! ## Encoding-shape lemmas -/

lemma to_bytes_eq (i : AssemblerInstruction) (tbl : SymbolTable) :
    i.to_bytes tbl = (opcode_bytes i ++ encoded_operands i tbl) ++
      List.replicate
        (4 - (opcode_bytes i ++ encoded_operands i tbl).length) 0 := by
  unfold AssemblerInstruction.to_bytes opcode_bytes encoded_operands
  simp [List.append_assoc]

lemma opcode_bytes_length (i : AssemblerInstruction) :
    (opcode_bytes i).length ≤ 1 := by
  unfold opcode_bytes
  split <;> simp

lemma to_bytes_length_ge (i : AssemblerInstruction) (tbl : SymbolTable) :
    4 ≤ (i.to_bytes tbl).length := by
  rw [to_bytes_eq]
  simp only [List.length_append, List.length_replicate]
  omega

lemma to_bytes_length_eq (i : AssemblerInstruction) (tbl : SymbolTable)
    (h : (encoded_operands i tbl).length ≤ 3) :
    (i.to_bytes tbl).length = 4 := by
  have hop := opcode_bytes_length i
  rw [to_bytes_eq]
  simp only [List.length_append, List.length_replicate]
  omega

lemma flatten_length_four (ws : List (List Nat))
    (h : ∀ w ∈ ws, w.length = 4) : ws.flatten.length = 4 * ws.length := by
  induction ws with
  | nil => simp
  | cons w rest ih =>
    simp only [List.flatten_cons, List.length_append, List.length_cons,
      h w (List.mem_cons_self w rest),
      ih (fun u hu => h u (List.mem_cons_of_mem w hu))]
    omega

lemma flatten_group (ws : List (List Nat)) : ∀ (m : Nat) (w : List Nat),
    (∀ u ∈ ws, u.length = 4) → ws[m]? = some w →
    (ws.flatten.drop (4 * m)).take 4 = w := by
  induction ws with
  | nil => intro m w _ hm; simp at hm
  | cons u rest ih =>
    intro m w hall hm
    have hu : u.length = 4 := hall u (List.mem_cons_self u rest)
    cases m with
    | zero =>
      obtain rfl : u = w := by simpa using hm
      simp only [List.flatten_cons, Nat.mul_zero, List.drop_zero]
      rw [← hu]
      exact List.take_left u rest.flatten
    | succ m1 =>
      simp only [List.flatten_cons]
      have harith : 4 * (m1 + 1) = u.length + 4 * m1 := by omega
      rw [harith, List.drop_append (4 * m1)]
      exact ih m1 w (fun z hz => hall z (List.mem_cons_of_mem u hz))
        (by simpa using hm)

lemma filter_get {α : Type} (pred : α → Bool) :
    ∀ (l : List α) (k : Nat) (x : α), l[k]? = some x → pred x = true →
    (l.filter pred)[((l.take k).filter pred).length]? = some x := by
  intro l
  induction l with
  | nil => intro k x h; simp at h
  | cons y t ih =>
    intro k x hk hx
    cases k with
    | zero =>
      obtain rfl : y = x := by simpa using hk
      simp [List.filter_cons, hx]
    | succ k1 =>
      have hk1 : t[k1]? = some x := by simpa using hk
      by_cases hy : pred y = true
      · simp only [List.take_succ_cons, List.filter_cons_of_pos hy,
          List.length_cons, List.getElem?_cons_succ]
        exact ih k1 x hk1 hx
      · have hyf : pred y = false := by simpa using hy
        rw [List.take_succ_cons, List.filter_cons_of_neg (by simp [hyf]),
          List.filter_cons_of_neg (by simp [hyf])]
        exact ih k1 x hk1 hx

/-! ## Unfolding lemmas for the pipeline -/

lemma pfp_errors (st : Assembler) (p : Program) :
    (process_first_phase st p).errors =
      (p.instructions.foldl first_step st).errors := rfl

lemma pfp_symbols (st : Assembler) (p : Program) :
    (process_first_phase st p).symbols =
      (p.instructions.foldl first_step st).symbols := rfl

lemma pfp_phase (st : Assembler) (p : Program) :
    (process_first_phase st p).phase = .Second := rfl

lemma pfp_current_section (st : Assembler) (p : Program) :
    (process_first_phase st p).current_section =
      (p.instructions.foldl first_step st).current_section := rfl

lemma write_pie_header_eq :
    write_pie_header = [45, 50, 49, 45] ++ List.replicate 61 0 := by decide

lemma assemble_program_ok (p : Program) (bs : List Nat)
    (h : assemble_program p = .ok bs) :
    (process_first_phase Assembler.new p).errors = [] ∧
    (process_first_phase Assembler.new p).sections.length = 2 ∧
    bs = write_pie_header ++
      (process_second_phase (process_first_phase Assembler.new p) p).2 := by
  unfold assemble_program at h
  by_cases he : (process_first_phase Assembler.new p).errors.isEmpty
  · rw [if_pos he] at h
    by_cases hs : (process_first_phase Assembler.new p).sections.length ≠ 2
    · rw [if_pos hs] at h
      cases h
    · rw [if_neg hs] at h
      refine ⟨List.isEmpty_iff.mp he, not_ne_iff.mp hs, ?_⟩
      exact (Except.ok.inj h).symm
  · rw [if_neg he] at h
    cases h

lemma body_eq (p : Program)
    (st1 : Assembler) (h1 : st1 = process_first_phase Assembler.new p) :
    (process_second_phase st1 p).2 =
      ((p.instructions.filter (fun i => i.is_opcode)).map
        (fun i => i.to_bytes st1.symbols)).flatten := by
  have hph : ({ st1 with current_instruction := 0 } : Assembler).phase
      = .Second := by
    show st1.phase = .Second
    rw [h1]
    exact pfp_phase Assembler.new p
  have hfold := second_fold p.instructions
    { st1 with current_instruction := 0 } [] hph
  show (p.instructions.foldl second_step
    ({ st1 with current_instruction := 0 }, [])).2 = _
  rw [hfold.1]
  simp

/-! ## Claim theorems -/

/-- C10: `SymbolTable::add_symbol` always appends the new symbol without any
uniqueness check, and `symbol_value` is first-match — for every table and
name it returns the offset of the earliest-added symbol with that name, or
`none` when no symbol has that name; a later insertion of the same name
never overwrites or shadows the first in lookups. -/
theorem symbol_table_first_match (t : SymbolTable) (s : Symbol) (n : String) :
    (t.add_symbol s).symbols = t.symbols ++ [s] ∧
    t.symbol_value n =
      (t.symbols.find? (fun sym => sym.name == n)).map Symbol.offset ∧
    (t.add_symbol s).symbol_value n =
      (t.symbol_value n <|> if s.name = n then some s.offset else none) :=
  ⟨rfl, symbol_value_aux_eq_find t.symbols n, add_symbol_symbol_value t s n⟩

/-- C6: operand byte layout — a register operand contributes exactly one
byte equal to the raw register index, and an integer operand contributes
exactly two bytes: the value narrowed to 16 bits (its two's-complement
pattern), written high byte first then low byte, so the two bytes recompose
big-endian to the narrowed value. -/
theorem operand_byte_layout (r : Nat) (tbl : SymbolTable) (v : Int)
    (_h : r < 256) :
    extract_operand (.Register r) tbl = [r] ∧
    extract_operand (.IntegerOperand v) tbl =
      [(v.emod 65536).toNat / 256, (v.emod 65536).toNat % 256] ∧
    (v.emod 65536).toNat < 65536 ∧
    256 * ((v.emod 65536).toNat / 256) + (v.emod 65536).toNat % 256 =
      (v.emod 65536).toNat := by
  have hlt : (v.emod 65536).toNat < 65536 := by
    have h1 : v.emod 65536 < 65536 := Int.emod_lt_of_pos v (by norm_num)
    have h2 : 0 ≤ v.emod 65536 := Int.emod_nonneg v (by norm_num)
    omega
  refine ⟨rfl, ?_, hlt, Nat.div_add_mod _ 256⟩
  show [(v.emod 65536).toNat / 256 % 256, (v.emod 65536).toNat % 256] = _
  rw [Nat.mod_eq_of_lt (by omega : (v.emod 65536).toNat / 256 < 256)]

/-- Witness for `operand_byte_layout` at register index 7 and integer -1:
the 16-bit narrowing of -1 is 65535, emitted as the bytes 255, 255. -/
theorem operand_byte_layout_witness :
    extract_operand (.Register 7) ⟨[]⟩ = [7] ∧
    extract_operand (.IntegerOperand (-1)) ⟨[]⟩ = [255, 255] ∧
    (((-1 : Int)).emod 65536).toNat < 65536 ∧
    256 * ((((-1 : Int)).emod 65536).toNat / 256) +
      (((-1 : Int)).emod 65536).toNat % 256 =
      (((-1 : Int)).emod 65536).toNat := by
  have h := operand_byte_layout 7 ⟨[]⟩ (-1) (by decide)
  exact ⟨h.1, h.2.1.trans (by decide), h.2.2.1, h.2.2.2⟩

/-- C7 (evaluation at the failing input): the source's operand alternation
is `integer_operand | register | irstring` with no label-usage alternative,
so the operand `@test1` fails to parse, and after `jmp` the text ` @hello`
is left unconsumed instead of becoming a label-usage operand — although the
repository's own tests expect `load $0 @test1`, `call @test` and
`jmpe @test` to parse with a `Token::LabelUsage` operand. -/
theorem operand_rejects_label_usage :
    operand "@test1".data = none ∧
    instruction_combined "jmp @hello".data =
      some ({ opcode := some (.Op .JMP), label := none, directive := none,
              operand1 := none, operand2 := none, operand3 := none },
            " @hello".data) :=
  ⟨rfl, rfl⟩

/-- C2: pass-2 gating and atomicity — if pass 1 accumulated at least one
error, or the number of sections seen differs from two, `assemble_program`
returns the complete accumulated error list (nonempty: the accumulated
pass-1 errors, or the single insufficient-sections error appended to the
empty accumulator) and pass 2 contributes nothing; otherwise the result is
the complete header-plus-body byte sequence — never partial bytecode. -/
theorem pass_two_gating (p : Program) :
    ((process_first_phase Assembler.new p).errors ≠ [] ∨
        (process_first_phase Assembler.new p).sections.length ≠ 2 →
      assemble_program p = .error
        (if (process_first_phase Assembler.new p).errors.isEmpty then
          [.InsufficientSections]
        else (process_first_phase Assembler.new p).errors) ∧
      (if (process_first_phase Assembler.new p).errors.isEmpty then
          ([.InsufficientSections] : List AssemblerError)
        else (process_first_phase Assembler.new p).errors) ≠ []) ∧
    ((process_first_phase Assembler.new p).errors = [] →
      (process_first_phase Assembler.new p).sections.length = 2 →
      assemble_program p = .ok (write_pie_header ++
        (process_second_phase (process_first_phase Assembler.new p) p).2)) := by
  constructor
  · intro hcond
    by_cases he : (process_first_phase Assembler.new p).errors = []
    · have hs : (process_first_phase Assembler.new p).sections.length ≠ 2 := by
        rcases hcond with hc | hc
        · exact absurd he hc
        · exact hc
      have hee : (process_first_phase Assembler.new p).errors.isEmpty = true :=
        List.isEmpty_iff.mpr he
      constructor
      · unfold assemble_program
        rw [if_pos hee, if_pos hs, he]
        rfl
      · rw [if_pos hee]
        decide
    · have hee : ¬ (process_first_phase Assembler.new p).errors.isEmpty
          = true := fun hc => he (List.isEmpty_iff.mp hc)
      constructor
      · unfold assemble_program
        rw [if_neg hee, if_neg hee]
      · rw [if_neg hee]
        exact he
  · intro he hs
    have hee : (process_first_phase Assembler.new p).errors.isEmpty = true :=
      List.isEmpty_iff.mpr he
    unfold assemble_program
    rw [if_pos hee, if_neg (not_ne_iff.mpr hs)]

/-- Witness for `pass_two_gating`: the empty program accumulates no pass-1
errors but sees zero sections, so assembly fails with exactly the
insufficient-sections error. -/
theorem pass_two_gating_witness :
    assemble_program exProgEmpty = .error [.InsufficientSections] ∧
    ([AssemblerError.InsufficientSections] : List AssemblerError) ≠ [] := by
  have h := (pass_two_gating exProgEmpty).1 (Or.inr (by decide))
  exact ⟨h.1, by decide⟩

/-- C3 counterexample: the two-section program `.data` / `.code` / `hlt`
assembles successfully, but the byte at the fixed header length offset 64 is
still header padding (0), and the 5-element tail from offset 64 is not the
4-byte body word: the padding loop `while header.len() <= PIE_HEADER_LENGTH`
emits a 65-byte header, so the body begins at 65, not 64. -/
theorem header_offset_counterexample :
    assemble_program exProg1 = .ok (write_pie_header ++ [5, 0, 0, 0]) ∧
    write_pie_header.length = 65 ∧
    (write_pie_header ++ [5, 0, 0, 0]).drop PIE_HEADER_LENGTH =
      0 :: [5, 0, 0, 0] ∧
    (0 :: [5, 0, 0, 0] : List Nat) ≠ [5, 0, 0, 0] :=
  ⟨rfl, by decide, by decide, by decide⟩

/-- C3 amended: for every successful assembly the first 4 bytes equal the
magic prefix [45, 50, 49, 45] and the bytes between the prefix and the body
are all zero, but the header is 65 bytes — `PIE_HEADER_LENGTH + 1`, because
the padding loop runs while the length is `≤ 64` — so the body begins
exactly at offset 65, one past the fixed header length. -/
theorem header_invariant_amended (p : Program) (bs : List Nat)
    (h : assemble_program p = .ok bs) :
    bs.take 4 = [45, 50, 49, 45] ∧
    (bs.take 65).drop 4 = List.replicate 61 0 ∧
    write_pie_header.length = PIE_HEADER_LENGTH + 1 ∧
    bs.drop 65 =
      (process_second_phase (process_first_phase Assembler.new p) p).2 := by
  obtain ⟨-, -, hbs⟩ := assemble_program_ok p bs h
  have h65 : write_pie_header.length = 65 := by decide
  subst hbs
  refine ⟨?_, ?_, by decide, ?_⟩
  · rw [List.take_append_eq_append_take, h65]
    have h0 : (4 : Nat) - 65 = 0 := by decide
    rw [h0, List.take_zero, List.append_nil]
    decide
  · rw [show (65 : Nat) = write_pie_header.length from h65.symm,
      List.take_left]
    decide
  · rw [show (65 : Nat) = write_pie_header.length from h65.symm,
      List.drop_left]

/-- Witness for `header_invariant_amended` at the program
`.data` / `.code` / `hlt`. -/
theorem header_invariant_amended_witness :
    (write_pie_header ++ [5, 0, 0, 0] : List Nat).take 4 = [45, 50, 49, 45] ∧
    ((write_pie_header ++ [5, 0, 0, 0] : List Nat).take 65).drop 4 =
      List.replicate 61 0 ∧
    write_pie_header.length = PIE_HEADER_LENGTH + 1 ∧
    (write_pie_header ++ [5, 0, 0, 0] : List Nat).drop 65 =
      (process_second_phase (process_first_phase Assembler.new exProg1)
        exProg1).2 :=
  header_invariant_amended exProg1 (write_pie_header ++ [5, 0, 0, 0]) rfl

/-- C4: `.asciiz` handling — for an instruction carrying both a label
declaration and an `.asciiz` directive with string content `s`, in pass 1
(phase `First`) the label's offset is patched to the read-only cursor at
the start of the string, then the bytes of `s` are appended to the
read-only buffer advancing the cursor one per byte, then a single NUL byte
is appended advancing it once more; in pass 2 (phase `Second`) the same
instruction appends no bytes and has no symbol or cursor side effect. -/
theorem asciiz_handling (st : Assembler) (bs : List Nat)
    (i : AssemblerInstruction) (name s : String)
    (h1 : i.label = some (.LabelDeclaration name))
    (h2 : i.directive = some (.Directive "asciiz"))
    (h3 : i.operand1 = some (.IrString s))
    (h4 : i.opcode = none) :
    (st.phase = .First →
      process_directive st i =
        { st with
            symbols := st.symbols.set_symbol_offset name st.ro_offset,
            ro := st.ro ++ str_bytes s ++ [0],
            ro_offset := st.ro_offset + (str_bytes s).length + 1 }) ∧
    (st.phase = .Second → process_directive st i = st) ∧
    (st.phase = .Second →
      second_step (st, bs) i =
        ({ st with current_instruction := st.current_instruction + 1 },
         bs)) := by
  have hdn : i.get_directive_name = some "asciiz" := by
    simp [AssemblerInstruction.get_directive_name, h2]
  have hop : i.has_operands = true := by
    simp [AssemblerInstruction.has_operands, h3]
  have hsc : i.get_string_constant = some s := by
    simp [AssemblerInstruction.get_string_constant, h3]
  have hln : i.get_label_name = some name := by
    simp [AssemblerInstruction.get_label_name, h1]
  have hpd2 : st.phase = .Second → process_directive st i = st := by
    intro hph
    unfold process_directive
    rw [hdn]
    simp only [hop, if_true]
    exact handle_asciiz_not_first st i (by rw [hph]; intro hc; cases hc)
  refine ⟨?_, hpd2, ?_⟩
  · intro hph
    unfold process_directive
    rw [hdn]
    simp only [hop, if_true]
    exact handle_asciiz_first st i name s hph hsc hln
  · intro hph
    have hio : i.is_opcode = false := by
      simp [AssemblerInstruction.is_opcode, h4]
    have hid : i.is_directive = true := by
      simp [AssemblerInstruction.is_directive, h2]
    have hstep : second_step (st, bs) i =
        ({ directive_step st i with
            current_instruction := (directive_step st i).current_instruction
              + 1 },
         if i.is_opcode then bs ++ i.to_bytes st.symbols else bs) := rfl
    rw [hstep]
    have hds : directive_step st i = st := by
      unfold directive_step
      rw [if_pos hid]
      exact hpd2 hph
    rw [hds]
    simp [hio]

/-- Witness for `asciiz_handling`: processing `msg: .asciiz 'Hi'` from the
fresh pass-1 state patches `msg` at cursor 0 and appends the bytes of
`"Hi"` and a NUL, advancing the cursor to 3. -/
theorem asciiz_handling_witness :
    process_directive Assembler.new exAsciiz =
      { Assembler.new with
          symbols := Assembler.new.symbols.set_symbol_offset "msg"
            Assembler.new.ro_offset,
          ro := Assembler.new.ro ++ str_bytes "Hi" ++ [0],
          ro_offset := Assembler.new.ro_offset + (str_bytes "Hi").length
            + 1 } :=
  (asciiz_handling Assembler.new [] exAsciiz "msg" "Hi"
    rfl rfl rfl rfl).1 rfl

/-- C5 counterexample: the two-section program `.data` / `.code` /
`load #1 #2` assembles successfully, but its body is the single 5-byte word
[0, 0, 1, 0, 2] — the two integer operands contribute two bytes each and
the padding loop only pads words *up to* 4 bytes — so the body length is
not a multiple of 4. -/
theorem word_alignment_counterexample :
    assemble_program exProg3 = .ok (write_pie_header ++ [0, 0, 1, 0, 2]) ∧
    ([0, 0, 1, 0, 2] : List Nat).length % 4 ≠ 0 :=
  ⟨rfl, by decide⟩

/-- C5 amended: for every successful assembly the body is the concatenation,
in source order, of one encoded word per opcode-bearing instruction
(directive-only and label-only instructions contribute no body bytes), and
whenever every opcode instruction's operands encode to at most 3 bytes (as
in every well-formed instruction form) each word is exactly 4 bytes, the
body length is a multiple of 4, and the m-th 4-byte group is exactly the
encoding of the m-th opcode instruction; an instruction whose operands
encode to more than 3 bytes (e.g. two integer operands) yields a longer
word and breaks the 4-byte grouping. -/
theorem word_alignment_amended (p : Program) (bs : List Nat)
    (h : assemble_program p = .ok bs)
    (hops : ∀ i ∈ p.instructions, i.is_opcode = true →
      (encoded_operands i
        (process_first_phase Assembler.new p).symbols).length ≤ 3) :
    bs.drop 65 =
      ((p.instructions.filter (fun i => i.is_opcode)).map
        (fun i =>
          i.to_bytes (process_first_phase Assembler.new p).symbols)).flatten ∧
    (bs.drop 65).length % 4 = 0 ∧
    (∀ (m : Nat) (im : AssemblerInstruction),
      (p.instructions.filter (fun i => i.is_opcode))[m]? = some im →
      ((bs.drop 65).drop (4 * m)).take 4 =
        im.to_bytes (process_first_phase Assembler.new p).symbols) := by
  obtain ⟨-, -, hbs⟩ := assemble_program_ok p bs h
  have h65 : write_pie_header.length = 65 := by decide
  have hdrop : bs.drop 65 =
      (process_second_phase (process_first_phase Assembler.new p) p).2 := by
    rw [hbs, show (65 : Nat) = write_pie_header.length from h65.symm,
      List.drop_left]
  have hbody := body_eq p (process_first_phase Assembler.new p) rfl
  have hflat : bs.drop 65 =
      ((p.instructions.filter (fun i => i.is_opcode)).map
        (fun i =>
          i.to_bytes (process_first_phase Assembler.new p).symbols)).flatten :=
    hdrop.trans hbody
  have hall : ∀ w ∈ (p.instructions.filter (fun i => i.is_opcode)).map
      (fun i => i.to_bytes (process_first_phase Assembler.new p).symbols),
      w.length = 4 := by
    intro w hw
    obtain ⟨i, hi, rfl⟩ := List.mem_map.mp hw
    have hmem := List.mem_filter.mp hi
    exact to_bytes_length_eq i _ (hops i hmem.1 hmem.2)
  refine ⟨hflat, ?_, ?_⟩
  · rw [hflat, flatten_length_four _ hall]
    omega
  · intro m im hm
    rw [hflat]
    have him : ((p.instructions.filter (fun i => i.is_opcode)).map
        (fun i =>
          i.to_bytes (process_first_phase Assembler.new p).symbols))[m]? =
        some (im.to_bytes (process_first_phase Assembler.new p).symbols) := by
      rw [List.getElem?_map, hm]
      rfl
    exact flatten_group _ m _ hall him

/-- Witness for `word_alignment_amended` at `.data` / `.code` /
`load $0 #100`, whose single word is [0, 0, 0, 100]. -/
theorem word_alignment_amended_witness :
    ((write_pie_header ++ [0, 0, 0, 100] : List Nat).drop 65).length % 4
      = 0 :=
  (word_alignment_amended exProg4 (write_pie_header ++ [0, 0, 0, 100])
    rfl (by decide)).2.1

/-- C8 counterexample: for the input `"hlt\n???"` the program parser
succeeds on the prefix `hlt` leaving the unparsable suffix `"\n???"` (on
which no further instruction parses), and `assemble` returns the
insufficient-sections error — not a parse error: the parsable prefix is
assembled and the remainder silently discarded. -/
theorem trailing_text_counterexample :
    program "hlt\n???".data = some (⟨[exParsedHlt]⟩, "\n???".data) ∧
    instruction_combined "\n???".data = none ∧
    assemble "hlt\n???" = .error [.InsufficientSections] ∧
    ([AssemblerError.InsufficientSections] : List AssemblerError) ≠
      [.ParseError "parse failure"] :=
  ⟨rfl, rfl, rfl, by decide⟩

/-- C8 amended: the program parser consumes a maximal parsable prefix and
`assemble` ignores the unconsumed remainder — whenever the parser succeeds,
the result of `assemble` is exactly the result of assembling the parsed
prefix, so a trailing unparsable suffix never causes a parse error (a parse
error arises only when not even one leading instruction parses), and any
failure of such a run comes from the assembly gates instead. -/
theorem assemble_ignores_remainder (raw : String) (p : Program)
    (rem : List Char) (h : program raw.data = some (p, rem)) :
    assemble raw = assemble_program p := by
  unfold assemble
  rw [h]

/-- Witness for `assemble_ignores_remainder` at the input `"hlt\n???"`. -/
theorem assemble_ignores_remainder_witness :
    assemble "hlt\n???" = assemble_program ⟨[exParsedHlt]⟩ :=
  assemble_ignores_remainder "hlt\n???" ⟨[exParsedHlt]⟩ "\n???".data rfl

/-- C9: no-segment-declared error — for every program in which instruction
`j` declares a label before any section-establishing directive has been
seen, and no other instruction declares that label, pass 1 records a
no-segment-declared error carrying the instruction index `j`, and the label
is not registered in the symbol table. -/
theorem no_segment_declared_error (p : Program) (j : Nat)
    (ij : AssemblerInstruction) (n : String)
    (hj : p.instructions[j]? = some ij)
    (hl : ij.label = some (.LabelDeclaration n))
    (hsec : ∀ m im, p.instructions[m]? = some im → m < j →
      establishes_section im = false)
    (huniq : ∀ m im, p.instructions[m]? = some im →
      im.get_label_name = some n → m = j) :
    AssemblerError.NoSegmentDeclarationFound j ∈
      (process_first_phase Assembler.new p).errors ∧
    (process_first_phase Assembler.new p).symbols.symbol_value n = none := by
  have hjlt : j < p.instructions.length := by
    rcases List.getElem?_eq_some.mp hj with ⟨hlt, -⟩
    exact hlt
  -- decompose the instruction list around index j
  have hdecomp : p.instructions =
      p.instructions.take j ++ ij :: p.instructions.drop (j + 1) := by
    have h1 := (List.take_append_drop j p.instructions).symm
    have h2 : p.instructions.drop j = ij :: p.instructions.drop (j + 1) := by
      rw [List.drop_eq_getElem_cons hjlt]
      congr 1
      have := List.getElem?_eq_some.mp hj
      rcases this with ⟨h, hg⟩
      exact hg
    rw [h2] at h1
    exact h1
  have htake_len : (p.instructions.take j).length = j := by
    rw [List.length_take]
    omega
  -- facts about the state after the prefix
  have hprefix_idx : ∀ i ∈ p.instructions.take j,
      ∃ m, m < j ∧ p.instructions[m]? = some i := by
    intro i hi
    obtain ⟨m, hm⟩ := List.mem_iff_getElem?.mp hi
    have hmlt : m < j := by
      rcases List.getElem?_eq_some.mp hm with ⟨hlt, -⟩
      omega
    exact ⟨m, hmlt, by rw [List.getElem?_take_of_lt hmlt] at hm; exact hm⟩
  have hstj_sec : ((p.instructions.take j).foldl first_step
      Assembler.new).current_section = none := by
    refine fold_section_none _ Assembler.new rfl ?_
    intro i hi
    obtain ⟨m, hmlt, hm⟩ := hprefix_idx i hi
    exact hsec m i hm hmlt
  have hstj_sym : ((p.instructions.take j).foldl first_step
      Assembler.new).symbols.symbol_value n = none := by
    refine fold_not_registered _ Assembler.new n rfl ?_
    intro i hi hni
    obtain ⟨m, hmlt, hm⟩ := hprefix_idx i hi
    exact absurd (huniq m i hm hni) (by omega)
  have hstj_ci : ((p.instructions.take j).foldl first_step
      Assembler.new).current_instruction = j := by
    rw [fold_ci, htake_len]
    show 0 + j = j
    omega
  -- the step on ij pushes the error and registers nothing
  set stj := (p.instructions.take j).foldl first_step Assembler.new with hstj
  have hil : ij.is_label = true := by
    simp [AssemblerInstruction.is_label, hl]
  have hsecb : ¬ stj.current_section.isSome = true := by
    rw [hstj_sec]
    simp
  have hlabstep : label_step stj ij =
      { stj with errors := stj.errors ++
          [.NoSegmentDeclarationFound stj.current_instruction] } := by
    unfold label_step
    simp [hil, hsecb]
  have herr1 : AssemblerError.NoSegmentDeclarationFound j ∈
      (first_step stj ij).errors := by
    show AssemblerError.NoSegmentDeclarationFound j ∈
      (directive_step (label_step stj ij) ij).errors
    rw [(directive_step_frame _ ij).1, hlabstep]
    rw [hstj_ci]
    exact List.mem_append_right _ (List.mem_singleton_self _)
  have hsym1 : (first_step stj ij).symbols.symbol_value n = none := by
    show (directive_step (label_step stj ij) ij).symbols.symbol_value n = none
    rcases directive_step_symbols (label_step stj ij) ij with hsym | ⟨nm, -, hsym⟩
    · rw [hsym, hlabstep]
      exact hstj_sym
    · rw [hsym, hlabstep]
      exact set_symbol_offset_none _ _ _ _ hstj_sym
  -- carry both facts through the instructions after j
  have hsuffix : ∀ i ∈ p.instructions.drop (j + 1),
      i.get_label_name ≠ some n := by
    intro i hi hni
    obtain ⟨m, hm⟩ := List.mem_iff_getElem?.mp hi
    rw [List.getElem?_drop] at hm
    exact absurd (huniq (j + 1 + m) i hm hni) (by omega)
  have hsplit : p.instructions.foldl first_step Assembler.new =
      (p.instructions.drop (j + 1)).foldl first_step (first_step stj ij) := by
    conv_lhs => rw [hdecomp]
    rw [List.foldl_append, List.foldl_cons, hstj]
  constructor
  · rw [pfp_errors, hsplit]
    exact fold_errors_mem _ _ _ herr1
  · rw [pfp_symbols, hsplit]
    exact fold_not_registered _ _ n hsym1 hsuffix

/-- Witness for `no_segment_declared_error`: the single-instruction program
`x: hlt` has no section open at instruction 0, so pass 1 records the
no-segment error for index 0 and leaves `x` unregistered. -/
theorem no_segment_declared_error_witness :
    AssemblerError.NoSegmentDeclarationFound 0 ∈
      (process_first_phase Assembler.new exProg5).errors ∧
    (process_first_phase Assembler.new exProg5).symbols.symbol_value "x" =
      none :=
  no_segment_declared_error exProg5 0 exLabelHlt "x" rfl rfl
    (fun _ _ _ hlt => absurd hlt (by omega))
    (fun m im hm _ => by
      cases m with
      | zero => rfl
      | succ m1 => simp [exProg5] at hm)

/-- C1: end-to-end label resolution — for every two-section program whose
instruction `j` declares label `n` (on an opcode instruction, no directive)
and whose later instruction `k` uses `@n` as its sole operand, successful
assembly records `n` in the symbol table with offset `4 * j` (4 bytes per
instruction, counting every instruction), and the referring instruction's
word in the body carries the high-byte-first-then-low-byte encoding of the
low 16 bits of that offset in its two operand-byte positions; the body is
the in-order concatenation of the opcode instructions' words, with the
referring instruction's word at the position counting the opcode
instructions before `k`. -/
theorem label_resolution_end_to_end (p : Program) (j k : Nat)
    (ij ik : AssemblerInstruction) (n : String) (op : Opcode) (bs : List Nat)
    (hj : p.instructions[j]? = some ij)
    (hjl : ij.label = some (.LabelDeclaration n))
    (hjd : ij.directive = none)
    (hk : p.instructions[k]? = some ik)
    (hko : ik.opcode = some (.Op op))
    (hk1 : ik.operand1 = some (.LabelUsage n))
    (hk2 : ik.operand2 = none)
    (hk3 : ik.operand3 = none)
    (_hjk : j < k)
    (hok : assemble_program p = .ok bs) :
    (process_first_phase Assembler.new p).symbols.symbol_value n =
      some (4 * j) ∧
    ik.to_bytes (process_first_phase Assembler.new p).symbols =
      [opcode_byte op, 4 * j / 256 % 256, 4 * j % 256, 0] ∧
    bs.drop 65 =
      ((p.instructions.filter (fun i => i.is_opcode)).map
        (fun i =>
          i.to_bytes (process_first_phase Assembler.new p).symbols)).flatten ∧
    (p.instructions.filter (fun i => i.is_opcode))[
        ((p.instructions.take k).filter (fun i => i.is_opcode)).length]? =
      some ik := by
  obtain ⟨herr, -, hbs⟩ := assemble_program_ok p bs hok
  have hreg : (process_first_phase Assembler.new p).symbols.symbol_value n =
      some (4 * j) := by
    rw [pfp_symbols]
    have hje : p.instructions.get? j = some ij := by
      rw [List.get?_eq_getElem?]
      exact hj
    have h := fold_registers p.instructions Assembler.new j ij n hje hjl hjd
      (by rw [← pfp_errors]; exact herr)
    simpa [Assembler.new] using h
  have hword : ik.to_bytes (process_first_phase Assembler.new p).symbols =
      [opcode_byte op, 4 * j / 256 % 256, 4 * j % 256, 0] := by
    simp only [AssemblerInstruction.to_bytes, hko, hk1, hk2, hk3,
      extract_operand, hreg, le_bytes32, List.getD]
    simp
  have h65 : write_pie_header.length = 65 := by decide
  have hbody : bs.drop 65 =
      ((p.instructions.filter (fun i => i.is_opcode)).map
        (fun i =>
          i.to_bytes (process_first_phase Assembler.new p).symbols)).flatten := by
    rw [hbs, show (65 : Nat) = write_pie_header.length from h65.symm,
      List.drop_left]
    exact body_eq p (process_first_phase Assembler.new p) rfl
  refine ⟨hreg, hword, hbody, ?_⟩
  exact filter_get (fun i => i.is_opcode) p.instructions k ik hk
    (by simp [AssemblerInstruction.is_opcode, hko])

/-- Witness for `label_resolution_end_to_end` at the program
`.data` / `.code` / `hello: inc $0` / `jmp @hello` / `hlt`: the label
`hello` (instruction index 2) gets offset 8 and the `jmp` word is
[6, 0, 8, 0]. -/
theorem label_resolution_end_to_end_witness :
    (process_first_phase Assembler.new exProg2).symbols.symbol_value "hello" =
      some (4 * 2) ∧
    exJmp.to_bytes (process_first_phase Assembler.new exProg2).symbols =
      [opcode_byte .JMP, 4 * 2 / 256 % 256, 4 * 2 % 256, 0] ∧
    ((write_pie_header ++
        [18, 0, 0, 0, 6, 0, 8, 0, 5, 0, 0, 0] : List Nat)).drop 65 =
      ((exProg2.instructions.filter (fun i => i.is_opcode)).map
        (fun i =>
          i.to_bytes (process_first_phase Assembler.new exProg2).symbols)).flatten ∧
    (exProg2.instructions.filter (fun i => i.is_opcode))[
        ((exProg2.instructions.take 3).filter
          (fun i => i.is_opcode)).length]? =
      some exJmp :=
  label_resolution_end_to_end exProg2 2 3 exInc exJmp "hello" .JMP
    (write_pie_header ++ [18, 0, 0, 0, 6, 0, 8, 0, 5, 0, 0, 0])
    rfl rfl rfl rfl rfl rfl rfl rfl (by decide) rfl

end Iridium
